import Mathlib

/-!
Verification development for a CLI coding agent.

The program is a tool-calling conversation loop: a streaming model turn is
aggregated into assistant text plus a tool-call batch (`callAgent`), tool
calls are dispatched through a registry (`executeTool`) inside an inner loop
(`chat`), and five file tools (`findFiles`, `searchFileContents`, `readFile`,
`createFile`, `editFile`) act on the working tree.

File contents and other tool-level text are modelled as `List Char`
(JavaScript strings); loop-level text (message contents, names) as `String`.
The file system is an association list from paths to contents; the shell and
the model backend are oracles passed in as functions.
-/

namespace Agent

/-! ## Text utilities mirroring the JavaScript string operations -/

/-- JavaScript `haystack.includes(needle)`: verbatim substring test.
`containsSub old l` is true iff `old` occurs contiguously in `l`;
the empty needle occurs in every string. -/
def containsSub (old : List Char) : List Char → Bool
  | [] => List.isPrefixOf old []
  | c :: t => List.isPrefixOf old (c :: t) || containsSub old t

/-- ECMAScript GetSubstitution for a string-pattern replace, which has no
capture groups: in the replacement string a doubled dollar stands for one
dollar, dollar-ampersand for the matched substring, dollar-backquote
(character 96) for the portion of the subject before the match,
dollar-quote (character 39) for the portion after it; a dollar followed by
anything else — digits included, since there are no captures — and every
other character are copied verbatim. -/
def getSubstitution (matched before after : List Char) : List Char → List Char
  | [] => []
  | [c] => [c]
  | c :: d :: r2 =>
    if c = '$' then
      if d = '$' then '$' :: getSubstitution matched before after r2
      else if d = '&' then matched ++ getSubstitution matched before after r2
      else if d = Char.ofNat 96 then before ++ getSubstitution matched before after r2
      else if d = Char.ofNat 39 then after ++ getSubstitution matched before after r2
      else c :: getSubstitution matched before after (d :: r2)
    else c :: getSubstitution matched before after (d :: r2)

/-- Worker for `replaceFirst`: scan for the first occurrence of `old`,
accumulating the already-scanned prefix `pre`; on a match at the current
position the result is the prefix, then the substituted replacement
(`GetSubstitution` with the match context), then the suffix after the
match; with no occurrence the subject is returned unchanged. -/
def replaceFirstGo (old new : List Char) (pre : List Char) : List Char → List Char
  | [] =>
    if List.isPrefixOf old [] then pre ++ getSubstitution old pre [] new
    else pre
  | c :: t =>
    if List.isPrefixOf old (c :: t) then
      pre ++ getSubstitution old pre (List.drop old.length (c :: t)) new ++
        List.drop old.length (c :: t)
    else replaceFirstGo old new (pre ++ [c]) t

/-- JavaScript `l.replace(old, new)` with a plain string argument: replace
the first (leftmost) occurrence of `old` by `new` subjected to
GetSubstitution.  On the empty needle this matches at position 0, as in
JavaScript. -/
def replaceFirst (old new l : List Char) : List Char :=
  replaceFirstGo old new [] l

/-- Bounded worker for `splitNE`: the `Nat` bound dominates the length of the
list argument and only makes the recursion structural; `splitB old b l` is
independent of `b` whenever `l.length ≤ b`. -/
def splitB (old : List Char) : Nat → List Char → List (List Char)
  | _, [] => [[]]
  | 0, _ :: _ => [[]]
  | b + 1, c :: t =>
    if !old.isEmpty && List.isPrefixOf old (c :: t) then
      [] :: splitB old b (List.drop (old.length - 1) t)
    else
      match splitB old b t with
      | [] => [[c]]
      | h :: r => (c :: h) :: r

/-- JavaScript `l.split(old)` for a non-empty separator: leftmost scan,
emitting the chunk collected so far each time `old` is found. -/
def splitNE (old l : List Char) : List (List Char) :=
  splitB old l.length l

/-- JavaScript `l.split(old)` including the empty-separator case,
where the string splits into its individual characters. -/
def splitJS (old l : List Char) : List (List Char) :=
  if old.isEmpty then l.map (fun c => [c]) else splitNE old l

/-- JavaScript `parts.join(sep)`. -/
def joinWith (sep : List Char) : List (List Char) → List Char
  | [] => []
  | [x] => x
  | x :: y :: r => x ++ sep ++ joinWith sep (y :: r)

/-- Whitespace recognised by `trim` (space, tab, newline, carriage return). -/
def isJsWs (c : Char) : Bool := c == ' ' || c == '\t' || c == '\n' || c == '\r'

/-- JavaScript `s.trim()`: strip whitespace from both ends. -/
def trimChars (l : List Char) : List Char :=
  ((l.dropWhile isJsWs).reverse.dropWhile isJsWs).reverse

/-- JavaScript `s.split(sep)` for a single-character separator (used with
the newline and the path separator).  The empty string splits to `[[]]`. -/
def splitOnChar (sep : Char) : List Char → List (List Char)
  | [] => [[]]
  | c :: t =>
    match splitOnChar sep t with
    | [] => [[]]
    | h :: r => if c == sep then [] :: h :: r else (c :: h) :: r

/-- Does `old` occur in `content` starting at index `i`? -/
def occursAtB (old content : List Char) (i : Nat) : Bool :=
  List.isPrefixOf old (List.drop i content)

/-- Decimal rendering of a line number, as in the JavaScript template
string `${offset + index}`. -/
def natChars (n : Nat) : List Char := Nat.toDigits 10 n

/-! ## File system model

The file system is an association list from paths to contents; a write
prepends a binding, which shadows any earlier binding for the same path. -/

abbrev FS := List (String × List Char)

/-- Successful `fs.readFile(p, "utf-8")`: the current content bound to `p`. -/
def fsRead (fs : FS) (p : String) : Option (List Char) :=
  (fs.find? (fun e => e.1 == p)).map (fun e => e.2)

/-- `fs.writeFile(p, c, "utf-8")`: bind `p` to `c`, shadowing earlier
bindings. -/
def fsWrite (fs : FS) (p : String) (c : List Char) : FS :=
  (p, c) :: fs

/-! ## editFile -/

/-- The `editFile` tool.  Reads the file; when `oldString` is absent it
returns the not-found error and leaves the file system untouched; otherwise
it replaces the first occurrence (or, with `replaceAll`, performs the
JavaScript `split(oldString).join(newString)`) and writes the file back.
A failing read is caught and converted to an error string. -/
def editFile (fs : FS) (filePath : String) (oldString newString : List Char)
    (replaceAll : Bool) : String × FS :=
  match fsRead fs filePath with
  | none => ("Error editing file: no such file or directory", fs)
  | some content =>
    if !(containsSub oldString content) then
      ("Error: oldString not found in file. Please ensure exact matching including indentation.",
       fs)
    else
      let newContent :=
        if replaceAll then joinWith newString (splitJS oldString content)
        else replaceFirst oldString newString content
      ("File edited successfully at " ++ filePath, fsWrite fs filePath newContent)

/-! ## readFile -/

/-- One rendered output line of `readFile`: the JavaScript template
string form of the absolute line number, a separator, and the line. -/
def renderLine (n : Nat) (l : List Char) : List Char :=
  natChars n ++ (" | ").toList ++ l

/-- The JavaScript `.map((line, index) => ...)` of `readFile`, numbering the
selected lines from `offset` upward. -/
def numberFrom (n : Nat) : List (List Char) → List (List Char)
  | [] => []
  | l :: r => renderLine n l :: numberFrom (n + 1) r

/-- The selected, numbered lines of `readFile`: split the content on
newlines, slice `[offset - 1, offset - 1 + limit)`, and prefix each line
with its absolute 1-indexed line number. -/
def readFileLines (content : List Char) (offset limit : Nat) : List (List Char) :=
  numberFrom offset (List.take limit (List.drop (offset - 1) (splitOnChar '\n' content)))

/-- The `readFile` tool on a readable file: the numbered selected lines
joined with newlines. -/
def readFileImpl (content : List Char) (offset limit : Nat) : List Char :=
  joinWith ['\n'] (readFileLines content offset limit)

/-! ## findFiles

The glob engine is an external library; only its use (pattern expansion with
the `node_modules/**` ignore) is in the source. -/

/-- Modelled from the spec: one path-segment of the external glob engine,
which "expands a glob pattern against the working tree"; a `*` matches any
(possibly empty) run of characters within the segment, every other
character matches itself.  The `Nat` bound only makes the recursion
structural and dominates the combined length of the arguments. -/
def segMatchB : Nat → List Char → List Char → Bool
  | _, [], [] => true
  | 0, _, _ => false
  | b + 1, '*' :: ps, s =>
    segMatchB b ps s ||
      (match s with
       | [] => false
       | _ :: t => segMatchB b ('*' :: ps) t)
  | _ + 1, [], _ :: _ => false
  | _ + 1, _ :: _, [] => false
  | b + 1, p :: ps, c :: t => (p == c) && segMatchB b ps t

/-- Modelled from the spec: segment-list matching of the external glob
engine; `**` matches any (possibly empty) run of whole path segments. -/
def globSegsB : Nat → List (List Char) → List (List Char) → Bool
  | _, [], [] => true
  | 0, _, _ => false
  | _ + 1, [], _ :: _ => false
  | b + 1, p :: ps, segs =>
    if p == ['*', '*'] then
      globSegsB b ps segs ||
        (match segs with
         | [] => false
         | _ :: t => globSegsB b (p :: ps) t)
    else
      match segs with
      | [] => false
      | s :: ss => segMatchB (p.length + s.length) p s && globSegsB b ps ss

/-- Modelled from the spec: the external glob engine's whole-path match,
splitting pattern and path on the path separator. -/
def globMatchPath (pattern path : List Char) : Bool :=
  let ps := splitOnChar '/' pattern
  let ss := splitOnChar '/' path
  globSegsB (ps.length + ss.length) ps ss

/-- The ignore pattern fixed in the source: `node_modules/**`. -/
def nodeModulesPat : List Char := ("node_modules/**").toList

/-- `path.join(process.cwd(), file)`: prefix the working directory. -/
def absPath (cwd file : List Char) : List Char := cwd ++ '/' :: file

/-- The list of absolute paths `findFiles` computes before serialization:
files of the working tree matching the pattern, minus those matching the
`node_modules/**` ignore, each joined onto the working directory. -/
def findFilesList (cwd : List Char) (tree : List (List Char)) (pattern : List Char) :
    List (List Char) :=
  (tree.filter (fun f => globMatchPath pattern f && !globMatchPath nodeModulesPat f)).map
    (absPath cwd)

/-- `JSON.stringify` of a string: quote it, escaping quotes and
backslashes. -/
def jsonString (s : List Char) : List Char :=
  '"' :: (s.map (fun c => if c == '"' || c == '\\' then ['\\', c] else [c])).flatten ++ ['"']

/-- `JSON.stringify` of an array of strings. -/
def jsonArray (xs : List (List Char)) : List Char :=
  '[' :: joinWith [','] (xs.map jsonString) ++ [']']

/-- The `findFiles` tool: the matching absolute paths serialized as a JSON
array string. -/
def findFiles (cwd : List Char) (tree : List (List Char)) (pattern : List Char) :
    List Char :=
  jsonArray (findFilesList cwd tree pattern)

/-! ## executeCommand and searchFileContents -/

/-- Outcome of the external shell running one command: either the process
exited successfully with captured streams, or the executor rejected
(non-zero exit or spawn failure) with an error message. -/
inductive ExecOutcome where
  | success (stdout stderr : List Char)
  | failure (message : List Char)

/-- `executeCommand`: run the command through the executor oracle; a
rejection is caught and reported as `errorCode`; a success with error output
but empty standard output also reports `errorCode`.  The result is the pair
`(data, errorCode)`. -/
def executeCommand (run : List Char → ExecOutcome) (cmd : List Char) :
    Option (List Char) × Option (List Char) :=
  match run cmd with
  | ExecOutcome.success out err =>
    if !err.isEmpty && out.isEmpty then (none, some err) else (some out, none)
  | ExecOutcome.failure msg => (none, some msg)

/-- JavaScript truthiness of a nullable string: present and non-empty. -/
def truthyStr (o : Option (List Char)) : Bool :=
  match o with
  | some s => !s.isEmpty
  | none => false

/-- The grep command line built by `searchFileContents`:
`grep ${flags} ${includeFlag} "${pattern}" "${searchPath}"` with flags
`-rn` plus `i` when case-insensitive and an optional `--include` glob. -/
def buildGrepCommand (pattern searchPath : List Char) (globPattern : Option (List Char))
    (ci : Bool) : List Char :=
  let flags := ("-rn").toList ++ (if ci then ['i'] else [])
  let includeFlag :=
    match globPattern with
    | some g => ("--include=").toList ++ '"' :: g ++ ['"']
    | none => []
  ("grep ").toList ++ flags ++ ' ' :: includeFlag ++ (" \"").toList ++ pattern ++
    ("\" \"").toList ++ searchPath ++ ['"']

/-- The `searchFileContents` tool: build the grep command, run it, return
"No matches found." when there is a truthy error code and no usable data,
and the trimmed output otherwise.  `none` models the uncaught exception of
trimming absent data (falsy error code with `null` data). -/
def searchFileContents (run : List Char → ExecOutcome) (pattern searchPath : List Char)
    (globPattern : Option (List Char)) (ci : Bool) : Option (List Char) :=
  let r := executeCommand run (buildGrepCommand pattern searchPath globPattern ci)
  if truthyStr r.2 && !truthyStr r.1 then some (("No matches found.").toList)
  else
    match r.1 with
    | some d => some (trimChars d)
    | none => none

/-! ## Conversation data model -/

/-- Message roles. -/
inductive Role where
  | system
  | user
  | assistant
  | tool
deriving DecidableEq, Repr

/-- A tool call emitted by the model: a function name plus its arguments.
The arguments are carried opaquely (the loop passes them through to the
tool implementation uninterpreted). -/
structure ToolCall where
  name : String
  arguments : String
deriving DecidableEq, Repr

/-- A conversation message: role, content, the optional tool-call batch
(assistant messages), and the optional originating tool name (tool
messages).  Absent JavaScript fields are `none`. -/
structure Message where
  role : Role
  content : String
  tool_calls : Option (List ToolCall)
  name : Option String
deriving DecidableEq, Repr

/-- One streamed fragment of a model turn: a text delta and an optional
tool-call batch. -/
structure Fragment where
  content : String
  tool_calls : Option (List ToolCall)
deriving DecidableEq, Repr

/-- The system prompt the tool-calling variant starts its history with. -/
def systemPromptText : String :=
  "Core Identity: You are an interactive CLI tool that helps with software engineering tasks.\nKey Guidelines: concise communication, professional objectivity, minimal emoji use, tool preference.\nCoding Approach: always read code before modifying it, avoid over-engineering, watch for security vulnerabilities, delete unused code completely."

/-- The initial history of the tool-calling variant: the system message. -/
def systemMessage : Message :=
  ⟨Role.system, systemPromptText, none, none⟩

/-- The user message appended for one line of terminal input. -/
def userMessage (u : String) : Message :=
  ⟨Role.user, u, none, none⟩

/-! ## Streaming response aggregator (callAgent) -/

/-- One step of `callAgent`'s fragment loop: extend the accumulated text by
the fragment's delta and, when the fragment's `tool_calls` field is present
(JavaScript truthiness: any non-null array, including the empty one),
overwrite the retained batch with it. -/
def aggStep (acc : String × List ToolCall) (f : Fragment) : String × List ToolCall :=
  (acc.1 ++ f.content,
   match f.tool_calls with
   | some b => b
   | none => acc.2)

/-- The aggregation `callAgent` performs over a whole fragment sequence,
starting from the empty text and the empty batch. -/
def callAgentAgg (parts : List Fragment) : String × List ToolCall :=
  parts.foldl aggStep ("", [])

/-- The single assistant message `callAgent` appends on turn completion:
the full text, and the retained batch when it is non-empty (the field is
left absent when the batch is empty). -/
def assistantMessageOf (parts : List Fragment) : Message :=
  ⟨Role.assistant, (callAgentAgg parts).1,
   if (callAgentAgg parts).2.isEmpty then none else some (callAgentAgg parts).2, none⟩

/-- `callAgent`: consume one model turn's fragments, append exactly one
assistant message to the history, and return the retained tool-call
batch. -/
def callAgent (h : List Message) (parts : List Fragment) :
    List Message × List ToolCall :=
  (h ++ [assistantMessageOf parts], (callAgentAgg parts).2)

/-- Spec-side recomputation of the aggregated text: the ordered
concatenation of the fragments' text deltas. -/
def textConcat : List Fragment → String
  | [] => ""
  | f :: r => f.content ++ textConcat r

/-- Spec-side description of what the code retains: the batch of the last
fragment whose `tool_calls` field is present (later fragments win), or
`none` when no fragment carries the field. -/
def lastPresentBatch : List Fragment → Option (List ToolCall)
  | [] => none
  | f :: r => ((lastPresentBatch r).orElse (fun _ => f.tool_calls))

/-- Spec-side formalization of the claim's words: the last non-empty
tool-call batch observed across the fragments (empty when none is
observed). -/
def lastNonEmptyBatch : List Fragment → List ToolCall
  | [] => []
  | f :: r =>
    let rest := lastNonEmptyBatch r
    if rest.isEmpty then
      match f.tool_calls with
      | some b => b
      | none => []
    else rest

/-! ## Tool registry and executeTool -/

/-- The tool registry: a partial map from tool names to implementations.
An implementation is a boundary function from the (opaque) arguments to
either a result string or a thrown exception, modelled with `Except`. -/
abbrev Registry := String → Option (String → Except String String)

/-- The inherited members of `Object.prototype` that a JavaScript property
lookup on the `availableTools` object literal finds when the name is not an
own property; each is truthy, so it passes the falsiness check meant to
detect unknown tools. -/
def objectProtoMembers : List String :=
  ["constructor", "hasOwnProperty", "isPrototypeOf", "propertyIsEnumerable",
   "toLocaleString", "toString", "valueOf", "__defineGetter__", "__defineSetter__",
   "__lookupGetter__", "__lookupSetter__", "__proto__"]

/-- Result of `await tool(functionArgs)` when the looked-up `tool` is the
inherited `Object.prototype` member named `nm`, called as a plain function
(strict-mode `this` is undefined) inside the try of `executeTool`:
`toString` returns "[object Undefined]"; `constructor` is the `Object`
constructor, which returns its object argument unchanged; reading
`__proto__` yields `Object.prototype`, which is not callable, so the call
throws a TypeError; every other member coerces `this` with ToObject and
throws a TypeError on undefined; thrown errors are caught by the handler
and converted to error strings. -/
def builtinCallResult (nm args : String) : String :=
  if nm = "toString" then "[object Undefined]"
  else if nm = "constructor" then args
  else if nm = "__proto__" then "Error executing __proto__: tool is not a function"
  else "Error executing " ++ nm ++ ": Cannot convert undefined or null to object"

/-- `executeTool`: look the tool up by name with JavaScript property-lookup
semantics — an own property of the registry shadows the prototype, an
unshadowed `Object.prototype` member is found and invoked, and only a name
matching neither yields the not-found error naming the tool.  A thrown
implementation exception is caught and converted to a textual error
result. -/
def executeTool (reg : Registry) (tc : ToolCall) : String :=
  match reg tc.name with
  | none =>
    if tc.name ∈ objectProtoMembers then builtinCallResult tc.name tc.arguments
    else "Error: Tool " ++ tc.name ++ " not found."
  | some f =>
    match f tc.arguments with
    | Except.ok r => r
    | Except.error e => "Error executing " ++ tc.name ++ ": " ++ e

/-- The tool-result message the loop appends for one tool call. -/
def toolMessage (reg : Registry) (tc : ToolCall) : Message :=
  ⟨Role.tool, executeTool reg tc, none, some tc.name⟩

/-! ## Conversation loop (chat) -/

/-- The inner loop of `chat`, driven by a finite script of model turns
(each turn a fragment sequence): run `callAgent`, stop when the returned
batch is empty, otherwise execute every tool call in order, append one tool
message per call, and run the next model turn on the grown history. -/
def runInner (reg : Registry) : List (List Fragment) → List Message → List Message
  | [], h => h
  | parts :: rest, h =>
    if (callAgentAgg parts).2.isEmpty then h ++ [assistantMessageOf parts]
    else
      runInner reg rest
        ((h ++ [assistantMessageOf parts]) ++ (callAgentAgg parts).2.map (toolMessage reg))

/-- One outer turn of `chat`: append the user message, then run the inner
loop on the scripted model turns. -/
def chatTurn (reg : Registry) (h : List Message) (u : String)
    (script : List (List Fragment)) : List Message :=
  runInner reg script (h ++ [userMessage u])

/-- Does this assistant message declare a call with the given tool name? -/
def declaresB (m : Message) (nm : String) : Bool :=
  m.role == Role.assistant &&
    (match m.tool_calls with
     | some b => b.any (fun tc => tc.name == nm)
     | none => false)

/-- Worker for `justifiedB`: every tool message of the second list is
preceded (in the first list or earlier in the second) by an assistant
message declaring a call with its tool name. -/
def justifiedFrom (pre : List Message) : List Message → Bool
  | [] => true
  | m :: rest =>
    (if m.role == Role.tool then pre.any (fun a => declaresB a (m.name.getD "")) else true) &&
      justifiedFrom (pre ++ [m]) rest

/-- The history invariant: every tool-role message follows an
assistant-role message that declared a matching call. -/
def justifiedB (h : List Message) : Bool :=
  justifiedFrom [] h

/-! ## The non-streaming variant -/

/-- One description of a tool parameter in the JSON schema sent to the
model. -/
structure ParamSpec where
  name : String
  type : String
  description : String
deriving DecidableEq, Repr

/-- A tool descriptor advertised to the model. -/
structure ToolDescriptor where
  name : String
  description : String
  required : List String
  properties : List ParamSpec
deriving DecidableEq, Repr

/-- The five tool descriptors of the tool-calling variant, transcribed from
the source's `tools` array. -/
def toolDescriptors : List ToolDescriptor :=
  [⟨"findFiles", "Find files in the project matching a pattern", ["pattern"],
    [⟨"pattern", "string", "The glob pattern to search for (e.g. \"**/*.js\")"⟩]⟩,
   ⟨"searchFileContents", "Search for text patterns within files", ["pattern"],
    [⟨"pattern", "string", "The text or regex pattern to search for"⟩,
     ⟨"searchPath", "string", "The directory to search in (default: \".\")"⟩,
     ⟨"globPattern", "string", "File pattern to include (e.g. \"*.js\")"⟩,
     ⟨"caseInsensitive", "boolean", "Whether to ignore case"⟩]⟩,
   ⟨"readFile", "Read the contents of a file", ["filePath"],
    [⟨"filePath", "string", "The path to the file"⟩,
     ⟨"offset", "integer", "Line number to start reading from (default: 1)"⟩,
     ⟨"limit", "integer", "Number of lines to read (default: 2000)"⟩]⟩,
   ⟨"createFile", "Create a new file with content", ["filePath", "content"],
    [⟨"filePath", "string", "The path for the new file"⟩,
     ⟨"content", "string", "The content to write to the file"⟩]⟩,
   ⟨"editFile", "Edit a file by replacing text", ["filePath", "oldString", "newString"],
    [⟨"filePath", "string", "The path to the file"⟩,
     ⟨"oldString", "string", "The existing text to be replaced"⟩,
     ⟨"newString", "string", "The new text to replace with"⟩,
     ⟨"replaceAll", "boolean", "Whether to replace all occurrences"⟩]⟩]

/-- A chat-completion request: model identifier, message history, streaming
flag, and the optional tool descriptor list. -/
structure ChatRequest where
  model : String
  messages : List Message
  stream : Bool
  tools : Option (List ToolDescriptor)
deriving DecidableEq, Repr

/-- The request issued by the streaming tool-calling variant's
`callAgent`. -/
def mkStreamRequest (h : List Message) : ChatRequest :=
  ⟨"ministral-3:8b", h, true, some toolDescriptors⟩

/-- The request issued by the non-streaming variant's `callChat`: no
`tools` field at all. -/
def mkNonStreamRequest (h : List Message) : ChatRequest :=
  ⟨"ministral-3:8b", h, false, none⟩

/-- The initial history of the non-streaming variant: empty (it has no
system message). -/
def nonStreamInitialMessages : List Message := []

/-- One outer turn of the non-streaming variant's `chat`: append the user
message, then the assistant message carrying the complete reply text (the
extracted `data.message.content`), with no tool-call handling. -/
def nonStreamTurn (h : List Message) (u reply : String) : List Message :=
  h ++ [userMessage u, ⟨Role.assistant, reply, none, none⟩]

/-! ## Concrete inputs used by the witness theorems -/

/-- A small registry for witnesses: one tool that echoes its arguments,
except that the argument "boom" makes it throw. -/
def wRegistry : Registry :=
  fun n =>
    if n = "echoTool" then
      some (fun a => if a = "boom" then Except.error "kaboom" else Except.ok a)
    else none

/-- A one-call tool batch for witnesses. -/
def wCall : ToolCall := ⟨"echoTool", "ping"⟩

/-- A one-fragment model turn carrying text and the one-call batch. -/
def wParts : List Fragment := [⟨"hi", some [wCall]⟩]

/-- A one-fragment model turn carrying only text. -/
def wPartsText : List Fragment := [⟨"done", none⟩]

/-- A ten-line file content for the readFile witness. -/
def wTenLines : List Char :=
  ("l1\nl2\nl3\nl4\nl5\nl6\nl7\nl8\nl9\nl10").toList

/-- A one-file file system bound to path f for the edit witnesses. -/
def wFS : FS := [("f", ("xAyAzA").toList)]

/-! ## Support lemmas -/

theorem foldl_aggStep_fst (parts : List Fragment) (acc : String × List ToolCall) :
    (parts.foldl aggStep acc).1 = acc.1 ++ textConcat parts := by
  induction parts generalizing acc with
  | nil => simp [textConcat]
  | cons f r ih =>
    simp only [List.foldl_cons, textConcat, ih, aggStep]
    rw [String.append_assoc]

theorem foldl_aggStep_snd (parts : List Fragment) (acc : String × List ToolCall) :
    (parts.foldl aggStep acc).2 = (lastPresentBatch parts).getD acc.2 := by
  induction parts generalizing acc with
  | nil => simp [lastPresentBatch]
  | cons f r ih =>
    simp only [List.foldl_cons, lastPresentBatch, ih, aggStep]
    cases hr : lastPresentBatch r with
    | none => cases f.tool_calls <;> simp [Option.orElse]
    | some b => simp [Option.orElse]

theorem callAgentAgg_fst (parts : List Fragment) :
    (callAgentAgg parts).1 = textConcat parts := by
  simpa using foldl_aggStep_fst parts ("", [])

theorem callAgentAgg_snd (parts : List Fragment) :
    (callAgentAgg parts).2 = (lastPresentBatch parts).getD [] := by
  simpa using foldl_aggStep_snd parts ("", [])

/-! ## C1 -/

/-- C1 (amended): for every fragment sequence, the aggregator's text is the
ordered concatenation of the deltas; the retained batch is the batch of the
last fragment whose tool-call field is present (empty when no fragment
carries one); and `callAgent` appends exactly one assistant message with
the full text and the retained batch, the field being absent when the
retained batch is empty. -/
theorem c1_aggregator (h : List Message) (parts : List Fragment) :
    (callAgentAgg parts).1 = textConcat parts
    ∧ (callAgentAgg parts).2 = (lastPresentBatch parts).getD []
    ∧ (callAgent h parts).1 =
        h ++ [⟨Role.assistant, textConcat parts,
              if ((lastPresentBatch parts).getD []).isEmpty then none
              else some ((lastPresentBatch parts).getD []), none⟩]
    ∧ (callAgent h parts).2 = (lastPresentBatch parts).getD [] := by
  refine ⟨callAgentAgg_fst parts, callAgentAgg_snd parts, ?_, callAgentAgg_snd parts⟩
  simp [callAgent, assistantMessageOf, callAgentAgg_fst, callAgentAgg_snd]

/-- C1 counterexample: the code retains the last present batch, not the
last non-empty one.  When a fragment carrying a non-empty batch is followed
by a fragment carrying a present-but-empty batch (a truthy empty array in
JavaScript), the code ends with the empty batch while the last non-empty
batch observed is the earlier one. -/
theorem c1_counterexample :
    (callAgentAgg [⟨"", some [⟨"readFile", "p"⟩]⟩, ⟨"", some []⟩]).2 = []
    ∧ lastNonEmptyBatch [⟨"", some [⟨"readFile", "p"⟩]⟩, ⟨"", some []⟩] =
        [⟨"readFile", "p"⟩]
    ∧ ([] : List ToolCall) ≠ [(⟨"readFile", "p"⟩ : ToolCall)] := by
  refine ⟨by decide, by decide, by decide⟩

/-! ## C3 -/

/-- C3: when `oldString` does not occur in the file, `editFile` returns the
not-found error string and performs no write — the file system is returned
unchanged — for both values of `replaceAll`. -/
theorem c3_editFile_not_found (fs : FS) (p : String) (old new : List Char)
    (ra : Bool) (content : List Char) (hread : fsRead fs p = some content)
    (hnot : containsSub old content = false) :
    (editFile fs p old new ra).1 =
      "Error: oldString not found in file. Please ensure exact matching including indentation."
    ∧ (editFile fs p old new ra).2 = fs := by
  simp [editFile, hread, hnot]

/-- C3 witness: edit a concrete one-file system with an absent
`oldString`. -/
theorem c3_witness :
    (editFile wFS "f" ("QQ").toList ("B").toList true).1 =
      "Error: oldString not found in file. Please ensure exact matching including indentation."
    ∧ (editFile wFS "f" ("QQ").toList ("B").toList true).2 = wFS :=
  c3_editFile_not_found wFS "f" ("QQ").toList ("B").toList true (("xAyAzA").toList)
    (by decide) (by decide)

/-! ## C7 -/

/-- C7 counterexample: the claim promises the not-found error for every
unregistered name, but the JavaScript lookup finds inherited
`Object.prototype` members: at the unregistered name `toString` the
program invokes the inherited function and returns "[object Undefined]",
not an error naming a missing tool. -/
theorem c7_counterexample :
    wRegistry "toString" = none
    ∧ executeTool wRegistry ⟨"toString", "x"⟩ = "[object Undefined]"
    ∧ executeTool wRegistry ⟨"toString", "x"⟩ ≠ "Error: Tool toString not found." :=
  ⟨rfl, rfl, by decide⟩

/-- C7 (amended): a call whose name is neither registered nor an inherited
`Object.prototype` member yields the textual error result naming the
missing tool; a name hitting an unshadowed prototype member bypasses the
not-found branch and the inherited function's result (or its caught
TypeError) is returned instead; a registered tool that throws has its
exception caught and converted to a textual error result; a normal result
is passed through; and in each case the result flows back as an ordinary
tool message after which the loop requests the next model turn. -/
theorem c7_executeTool_boundary (reg : Registry) (nm args : String) :
    (reg nm = none → nm ∉ objectProtoMembers →
       executeTool reg ⟨nm, args⟩ = "Error: Tool " ++ nm ++ " not found.")
    ∧ (reg nm = none → nm ∈ objectProtoMembers →
       executeTool reg ⟨nm, args⟩ = builtinCallResult nm args)
    ∧ (∀ f e, reg nm = some f → f args = Except.error e →
       executeTool reg ⟨nm, args⟩ = "Error executing " ++ nm ++ ": " ++ e)
    ∧ (∀ f r, reg nm = some f → f args = Except.ok r →
       executeTool reg ⟨nm, args⟩ = r)
    ∧ (∀ h rest parts, (callAgentAgg parts).2 ≠ [] →
       runInner reg (parts :: rest) h =
         runInner reg rest
           ((h ++ [assistantMessageOf parts]) ++
             (callAgentAgg parts).2.map (toolMessage reg))) := by
  refine ⟨fun hn hnp => by simp [executeTool, hn, hnp],
    fun hn hp => by simp [executeTool, hn, hp],
    fun f e hf he => ?_, fun f r hf hr => ?_, fun h rest parts hne => ?_⟩
  · simp [executeTool, hf, he]
  · simp [executeTool, hf, hr]
  · cases hcc : (callAgentAgg parts).2 with
    | nil => exact absurd hcc hne
    | cons a l => simp [runInner, hcc]

/-- C7 witness: a name outside both the registry and the prototype chain,
a prototype hit, and a throwing tool, all on a concrete registry; the loop
step at a concrete turn. -/
theorem c7_witness :
    executeTool wRegistry ⟨"missingTool", "x"⟩ = "Error: Tool missingTool not found."
    ∧ executeTool wRegistry ⟨"valueOf", "x"⟩ =
        "Error executing valueOf: Cannot convert undefined or null to object"
    ∧ executeTool wRegistry ⟨"echoTool", "boom"⟩ = "Error executing echoTool: kaboom"
    ∧ executeTool wRegistry ⟨"echoTool", "ping"⟩ = "ping"
    ∧ runInner wRegistry [wParts] [systemMessage] =
        (([systemMessage] ++ [assistantMessageOf wParts]) ++
          (callAgentAgg wParts).2.map (toolMessage wRegistry)) := by
  refine ⟨(c7_executeTool_boundary wRegistry "missingTool" "x").1 rfl (by decide),
    ?_,
    (c7_executeTool_boundary wRegistry "echoTool" "boom").2.2.1 _ "kaboom" rfl rfl,
    (c7_executeTool_boundary wRegistry "echoTool" "ping").2.2.2.1 _ "ping" rfl rfl,
    ?_⟩
  · have h := (c7_executeTool_boundary wRegistry "valueOf" "x").2.1 rfl (by decide)
    rw [h]
    decide
  · have h := (c7_executeTool_boundary wRegistry "echoTool" "ping").2.2.2.2
      [systemMessage] [] wParts (by decide)
    exact h

/-! ## C10 -/

theorem containsSub_nil_left (l : List Char) : containsSub [] l = true := by
  cases l <;> simp [containsSub, List.isPrefixOf]

theorem replaceFirst_nil_left (new l : List Char) :
    replaceFirst [] new l = getSubstitution [] [] l new ++ l := by
  cases l with
  | nil => simp [replaceFirst, replaceFirstGo]
  | cons c t => simp [replaceFirst, replaceFirstGo]

theorem getSubstitution_of_no_dollar (matched before after : List Char) :
    ∀ s : List Char, '$' ∉ s → getSubstitution matched before after s = s := by
  intro s
  induction s with
  | nil => intro _; rfl
  | cons c r ih =>
    intro hnd
    rw [List.mem_cons] at hnd
    push_neg at hnd
    have hc : c ≠ '$' := fun h => hnd.1 h.symm
    cases r with
    | nil => rfl
    | cons d r2 =>
      have h2 := ih hnd.2
      simp only [getSubstitution, if_neg hc]
      rw [h2]

theorem fsRead_fsWrite (fs : FS) (p : String) (c : List Char) :
    fsRead (fsWrite fs p c) p = some c := by
  simp [fsRead, fsWrite, List.find?]

/-- C10 counterexample: JavaScript replace applies GetSubstitution to the
replacement even with the empty pattern, so with newString a doubled dollar
the program writes a single dollar before the original content — not
newString followed by the content as the claim states for every
newString. -/
theorem c10_counterexample :
    fsRead (editFile wFS "f" [] (("$$").toList) false).2 "f" =
      some (("$xAyAzA").toList)
    ∧ ("$xAyAzA").toList ≠ ("$$").toList ++ ("xAyAzA").toList :=
  ⟨by decide, by decide⟩

/-- C10 (amended): `editFile` with the empty `oldString` never takes the
not-found branch (the empty string occurs in every file); with `replaceAll`
falsy it reports success and rewrites the file as the GetSubstitution image
of `newString` — taken at the empty match at position 0, whose
before-context is empty and whose after-context is the whole content —
immediately followed by the original content; when `newString` contains no
dollar sign this is `newString` followed by the original content. -/
theorem c10_editFile_empty_old (fs : FS) (p : String) (new content : List Char)
    (hread : fsRead fs p = some content) :
    containsSub [] content = true
    ∧ (editFile fs p [] new false).1 = "File edited successfully at " ++ p
    ∧ fsRead (editFile fs p [] new false).2 p =
        some (getSubstitution [] [] content new ++ content)
    ∧ ('$' ∉ new →
        fsRead (editFile fs p [] new false).2 p = some (new ++ content)) := by
  refine ⟨containsSub_nil_left content, ?_, ?_, ?_⟩
  · simp [editFile, hread, containsSub_nil_left]
  · simp [editFile, hread, containsSub_nil_left, replaceFirst_nil_left, fsRead_fsWrite]
  · intro hnd
    simp [editFile, hread, containsSub_nil_left, replaceFirst_nil_left, fsRead_fsWrite,
      getSubstitution_of_no_dollar [] [] content new hnd]

/-- C10 witness: insert at position 0 of a concrete file with a dollar-free
newString. -/
theorem c10_witness :
    containsSub [] (("xAyAzA").toList) = true
    ∧ (editFile wFS "f" [] (("NEW").toList) false).1 = "File edited successfully at f"
    ∧ fsRead (editFile wFS "f" [] (("NEW").toList) false).2 "f" =
        some (("NEW").toList ++ ("xAyAzA").toList) := by
  have hc := c10_editFile_empty_old wFS "f" (("NEW").toList) (("xAyAzA").toList)
    (by decide)
  exact ⟨hc.1, hc.2.1, hc.2.2.2 (by decide)⟩

/-! ## C5 -/

theorem numberFrom_length (ls : List (List Char)) (n : Nat) :
    (numberFrom n ls).length = ls.length := by
  induction ls generalizing n with
  | nil => rfl
  | cons l r ih => simp [numberFrom, ih]

theorem numberFrom_getElem? (ls : List (List Char)) (n i : Nat) :
    (numberFrom n ls)[i]? = (ls[i]?).map (renderLine (n + i)) := by
  induction ls generalizing n i with
  | nil => simp [numberFrom]
  | cons l r ih =>
    cases i with
    | zero => simp [numberFrom]
    | succ j =>
      simp only [numberFrom, List.getElem?_cons_succ, ih]
      have hn : n + 1 + j = n + (j + 1) := by omega
      rw [hn]

/-- C5: for every readable file, `offset ≥ 1` and any `limit`, `readFile`
selects up to `limit` lines starting at the 1-indexed line `offset`; the
i-th returned line is the absolute line `offset + i` of the file prefixed
with its absolute 1-indexed line number; and an offset beyond the end of
the file yields the empty text, not an error. -/
theorem c5_readFile_window (content : List Char) (offset limit : Nat)
    (hoff : 1 ≤ offset) :
    (readFileLines content offset limit).length =
      min limit ((splitOnChar '\n' content).length - (offset - 1))
    ∧ (∀ i, i < (readFileLines content offset limit).length →
        (readFileLines content offset limit)[i]? =
          ((splitOnChar '\n' content)[offset - 1 + i]?).map (renderLine (offset + i)))
    ∧ ((splitOnChar '\n' content).length < offset →
        readFileImpl content offset limit = []) := by
  refine ⟨?_, ?_, ?_⟩
  · simp [readFileLines, numberFrom_length]
  · intro i hi
    rw [readFileLines, numberFrom_getElem?]
    rw [readFileLines, numberFrom_length, List.length_take] at hi
    have hlt : i < limit := Nat.lt_of_lt_of_le hi (Nat.min_le_left _ _)
    rw [List.getElem?_take, if_pos hlt, List.getElem?_drop]
  · intro hlt
    have hle : (splitOnChar '\n' content).length ≤ offset - 1 := by omega
    simp [readFileImpl, readFileLines, List.drop_eq_nil_of_le hle, numberFrom, joinWith]

/-- C5 witness: a ten-line file read with offset 5 and limit 3 yields
exactly lines 5 through 7, prefixed 5, 6, 7. -/
theorem c5_witness :
    (readFileLines wTenLines 5 3).length =
      min 3 ((splitOnChar '\n' wTenLines).length - 4)
    ∧ readFileImpl wTenLines 5 3 = ("5 | l5\n6 | l6\n7 | l7").toList
    ∧ readFileImpl wTenLines 11 3 = [] :=
  ⟨(c5_readFile_window wTenLines 5 3 (by decide)).1, by decide,
    (c5_readFile_window wTenLines 11 3 (by decide)).2.2 (by decide)⟩

/-! ## C8 -/

/-- C8: when the grep run rejects with a non-empty message, or succeeds
with empty standard output but error output, `searchFileContents` returns
exactly the literal "No matches found."; when the run succeeds with
non-empty output (the matched lines, path:line-prefixed by grep's `-rn`
flags), it returns that output trimmed; and the command it builds starts
with `grep -rn`. -/
theorem c8_search_contract (run : List Char → ExecOutcome)
    (pattern searchPath : List Char) (globPattern : Option (List Char)) (ci : Bool) :
    (∀ msg, msg ≠ [] →
       run (buildGrepCommand pattern searchPath globPattern ci) = ExecOutcome.failure msg →
       searchFileContents run pattern searchPath globPattern ci =
         some (("No matches found.").toList))
    ∧ (∀ err, err ≠ [] →
       run (buildGrepCommand pattern searchPath globPattern ci) =
         ExecOutcome.success [] err →
       searchFileContents run pattern searchPath globPattern ci =
         some (("No matches found.").toList))
    ∧ (∀ out err, out ≠ [] →
       run (buildGrepCommand pattern searchPath globPattern ci) =
         ExecOutcome.success out err →
       searchFileContents run pattern searchPath globPattern ci = some (trimChars out))
    ∧ (∃ rest, buildGrepCommand pattern searchPath globPattern ci =
        ("grep -rn").toList ++ rest) := by
  refine ⟨fun msg hm hr => ?_, fun err he hr => ?_, fun out err ho hr => ?_, ?_⟩
  · simp [searchFileContents, executeCommand, hr, truthyStr, hm]
  · simp [searchFileContents, executeCommand, hr, truthyStr, he]
  · simp [searchFileContents, executeCommand, hr, truthyStr, ho]
  · refine ⟨(if ci then ['i'] else []) ++ ' ' ::
      (match globPattern with
       | some g => ("--include=").toList ++ '"' :: g ++ ['"']
       | none => []) ++ (" \"").toList ++ pattern ++ ("\" \"").toList ++ searchPath ++
      ['"'], ?_⟩
    show ("grep ").toList ++ _ ++ _ = _
    rw [← List.append_assoc]
    rfl

/-- C8 witness: grep exiting 1 with no output (no matches) yields the
literal text, and a successful run's output comes back trimmed. -/
theorem c8_witness :
    searchFileContents (fun _ => ExecOutcome.failure (("exit 1").toList))
      ("p").toList (".").toList none false = some (("No matches found.").toList)
    ∧ searchFileContents (fun _ => ExecOutcome.success (("a.js:3:m\n").toList) [])
        ("p").toList (".").toList none false = some (("a.js:3:m").toList) := by
  refine ⟨(c8_search_contract _ ("p").toList (".").toList none false).1
    (("exit 1").toList) (by decide) rfl, ?_⟩
  have h := (c8_search_contract (fun _ => ExecOutcome.success (("a.js:3:m\n").toList) [])
    ("p").toList (".").toList none false).2.2.1 (("a.js:3:m\n").toList) [] (by decide) rfl
  rw [h]
  decide

/-! ## C2 -/

theorem justifiedFrom_append (l1 l2 pre : List Message) :
    justifiedFrom pre (l1 ++ l2) =
      (justifiedFrom pre l1 && justifiedFrom (pre ++ l1) l2) := by
  induction l1 generalizing pre with
  | nil => simp [justifiedFrom]
  | cons m r ih =>
    simp only [List.cons_append, justifiedFrom, List.append_eq]
    rw [ih, Bool.and_assoc, List.append_cons pre m r]

theorem justifiedFrom_of_witness (l : List Message) :
    ∀ pre, (∀ m ∈ l, m.role = Role.tool →
        ∃ w ∈ pre, declaresB w (m.name.getD "") = true) →
      justifiedFrom pre l = true := by
  induction l with
  | nil => intro pre _; rfl
  | cons m r ih =>
    intro pre hw
    simp only [justifiedFrom, Bool.and_eq_true]
    constructor
    · by_cases hrole : m.role = Role.tool
      · obtain ⟨w, hwmem, hdecl⟩ := hw m (List.mem_cons_self m r) hrole
        have hb : (m.role == Role.tool) = true := by simp [hrole]
        simp only [hb, if_true, List.any_eq_true]
        exact ⟨w, hwmem, hdecl⟩
      · have hb : (m.role == Role.tool) = false := by
          simpa using hrole
        simp [hb]
    · refine ih (pre ++ [m]) ?_
      intro m' hm' hrole
      obtain ⟨w, hwmem, hdecl⟩ := hw m' (List.mem_cons_of_mem _ hm') hrole
      exact ⟨w, List.mem_append_left _ hwmem, hdecl⟩

theorem justifiedB_append_assistant (h : List Message) (parts : List Fragment)
    (hj : justifiedB h = true) :
    justifiedB (h ++ [assistantMessageOf parts]) = true := by
  unfold justifiedB at *
  rw [justifiedFrom_append]
  simp [hj, justifiedFrom, assistantMessageOf]

theorem justifiedB_append_toolMsgs (reg : Registry) (h : List Message)
    (parts : List Fragment) (hne : (callAgentAgg parts).2.isEmpty = false)
    (hj : justifiedB h = true) :
    justifiedB ((h ++ [assistantMessageOf parts]) ++
      (callAgentAgg parts).2.map (toolMessage reg)) = true := by
  unfold justifiedB
  rw [justifiedFrom_append]
  have h1 : justifiedFrom [] (h ++ [assistantMessageOf parts]) = true :=
    justifiedB_append_assistant h parts hj
  rw [h1, Bool.true_and, List.nil_append]
  refine justifiedFrom_of_witness _ _ ?_
  intro tm htm _
  obtain ⟨tc, htc, rfl⟩ := List.mem_map.mp htm
  refine ⟨assistantMessageOf parts,
    List.mem_append_right _ (List.mem_singleton.mpr rfl), ?_⟩
  have hname : (toolMessage reg tc).name.getD "" = tc.name := rfl
  rw [hname]
  simp [declaresB, assistantMessageOf, hne, List.any_eq_true]
  exact ⟨tc, htc, by simp⟩

theorem justifiedB_runInner (reg : Registry) (script : List (List Fragment)) :
    ∀ h, justifiedB h = true → justifiedB (runInner reg script h) = true := by
  induction script with
  | nil => intro h hj; exact hj
  | cons parts rest ih =>
    intro h hj
    by_cases hcc : (callAgentAgg parts).2.isEmpty
    · simp only [runInner, hcc, if_true]
      exact justifiedB_append_assistant h parts hj
    · have hcc' : (callAgentAgg parts).2.isEmpty = false := by
        simpa using hcc
      simp only [runInner, hcc', Bool.false_eq_true, if_false]
      exact ih _ (justifiedB_append_toolMsgs reg h parts hcc' hj)

theorem runInner_extends (reg : Registry) (script : List (List Fragment)) :
    ∀ h, h <+: runInner reg script h := by
  induction script with
  | nil => intro h; exact List.prefix_refl h
  | cons parts rest ih =>
    intro h
    by_cases hcc : (callAgentAgg parts).2.isEmpty
    · simp only [runInner, hcc, if_true]
      exact List.prefix_append h _
    · have hcc' : (callAgentAgg parts).2.isEmpty = false := by
        simpa using hcc
      simp only [runInner, hcc', Bool.false_eq_true, if_false]
      refine List.IsPrefix.trans ?_ (ih _)
      rw [List.append_assoc]
      exact List.prefix_append h _

/-- C2: a model turn with a non-empty batch appends, before the next model
turn, exactly one tool message per call, in the order the calls were
listed, each carrying the call's name and the executed result; a turn with
an empty batch ends the inner loop; the history invariant — every tool
message follows an assistant message declaring a matching call — is
preserved by the whole inner loop; and the loop only ever appends to the
history (the input history is a prefix of the output). -/
theorem c2_turn_controller (reg : Registry) (parts : List Fragment)
    (rest script : List (List Fragment)) (h : List Message) :
    ((callAgentAgg parts).2 = [] →
       runInner reg (parts :: rest) h = h ++ [assistantMessageOf parts])
    ∧ ((callAgentAgg parts).2 ≠ [] →
       runInner reg (parts :: rest) h =
         runInner reg rest
           ((h ++ [assistantMessageOf parts]) ++
             (callAgentAgg parts).2.map (toolMessage reg)))
    ∧ ((callAgentAgg parts).2.map (toolMessage reg)).length =
        (callAgentAgg parts).2.length
    ∧ (∀ tc ∈ (callAgentAgg parts).2,
        (toolMessage reg tc).role = Role.tool ∧
          (toolMessage reg tc).name = some tc.name ∧
          (toolMessage reg tc).content = executeTool reg tc)
    ∧ (justifiedB h = true → justifiedB (runInner reg script h) = true)
    ∧ h <+: runInner reg script h := by
  refine ⟨fun hz => by simp [runInner, hz], fun hne => ?_, by simp,
    fun tc _ => ⟨rfl, rfl, rfl⟩,
    fun hj => justifiedB_runInner reg script h hj, runInner_extends reg script h⟩
  cases hcc : (callAgentAgg parts).2 with
  | nil => exact absurd hcc hne
  | cons a l => simp [runInner, hcc]

/-- C2 witness: a concrete one-call turn appends the assistant message and
exactly one tool message before the (empty) remainder of the script, the
result history still satisfies the invariant, and the input history is a
prefix of the output. -/
theorem c2_witness :
    runInner wRegistry [wParts] [systemMessage] =
      (([systemMessage] ++ [assistantMessageOf wParts]) ++
        (callAgentAgg wParts).2.map (toolMessage wRegistry))
    ∧ justifiedB (runInner wRegistry [wParts] [systemMessage]) = true
    ∧ [systemMessage] <+: runInner wRegistry [wParts] [systemMessage] := by
  have hc := c2_turn_controller wRegistry wParts [] [wParts] [systemMessage]
  exact ⟨hc.2.1 (by decide), hc.2.2.2.2.1 (by decide), hc.2.2.2.2.2⟩

/-! ## C9 -/

/-- C9 counterexample: the non-streaming variant does not offer the same
tool-descriptor set as the streaming variant — its request carries no
`tools` field at all while the streaming variant sends five descriptors —
and it also starts from a different (system-message-free) history. -/
theorem c9_counterexample :
    (mkNonStreamRequest []).tools = none
    ∧ (mkStreamRequest []).tools = some toolDescriptors
    ∧ (mkNonStreamRequest []).tools ≠ (mkStreamRequest []).tools
    ∧ nonStreamInitialMessages ≠ [systemMessage] :=
  ⟨rfl, rfl, by decide, by decide⟩

/-- C9 (amended): the non-streaming variant coincides with the streaming
variant only on tool-free turns: for a model reply whose aggregation
carries no tool calls, both variants append the same user and assistant
messages in the same order (the non-streaming one receiving the whole text
in one shot); the two requests share the model identifier and history but
differ in the streaming flag, and the non-streaming request offers no
tools. -/
theorem c9_nonstream_refinement (reg : Registry) (h : List Message) (u : String)
    (parts : List Fragment) (hno : (callAgentAgg parts).2 = []) :
    nonStreamTurn h u (textConcat parts) = chatTurn reg h u [parts]
    ∧ (mkNonStreamRequest h).model = (mkStreamRequest h).model
    ∧ (mkNonStreamRequest h).messages = (mkStreamRequest h).messages
    ∧ (mkNonStreamRequest h).stream = false
    ∧ (mkStreamRequest h).stream = true := by
  refine ⟨?_, rfl, rfl, rfl, rfl⟩
  simp [nonStreamTurn, chatTurn, runInner, hno, assistantMessageOf, callAgentAgg_fst]

/-- C9 witness: one concrete tool-free turn, equal histories on both
variants. -/
theorem c9_witness :
    nonStreamTurn [] "hi" (textConcat wPartsText) =
      chatTurn wRegistry [] "hi" [wPartsText] :=
  (c9_nonstream_refinement wRegistry [] "hi" wPartsText (by decide)).1

/-! ## C4 -/

theorem eq_append_drop_of_isPrefixOf {old l : List Char}
    (h : List.isPrefixOf old l = true) : l = old ++ List.drop old.length l := by
  obtain ⟨s, hs⟩ := List.isPrefixOf_iff_prefix.mp h
  subst hs
  rw [List.drop_left]

theorem replaceFirstGo_spec (old new : List Char) :
    ∀ content pre, containsSub old content = true →
      ∃ i, occursAtB old content i = true ∧
        (∀ j, j < i → occursAtB old content j = false) ∧
        replaceFirstGo old new pre content =
          (pre ++ List.take i content) ++
            getSubstitution old (pre ++ List.take i content)
              (List.drop (i + old.length) content) new ++
            List.drop (i + old.length) content := by
  intro content
  induction content with
  | nil =>
    intro pre h
    rw [containsSub] at h
    refine ⟨0, by simpa [occursAtB] using h, fun j hj => absurd hj (Nat.not_lt_zero j), ?_⟩
    simp [replaceFirstGo, h]
  | cons c t ih =>
    intro pre h
    by_cases hp : List.isPrefixOf old (c :: t) = true
    · refine ⟨0, by simpa [occursAtB] using hp,
        fun j hj => absurd hj (Nat.not_lt_zero j), ?_⟩
      simp [replaceFirstGo, hp]
    · have hpf : List.isPrefixOf old (c :: t) = false := Bool.eq_false_iff.mpr hp
      have hct : containsSub old t = true := by
        rw [containsSub, hpf] at h
        simpa using h
      obtain ⟨i, hocc, hmin, heq⟩ := ih (pre ++ [c]) hct
      refine ⟨i + 1, ?_, ?_, ?_⟩
      · simpa [occursAtB] using hocc
      · intro j hj
        cases j with
        | zero => simpa [occursAtB] using hpf
        | succ j' => simpa [occursAtB] using hmin j' (by omega)
      · have hstep : replaceFirstGo old new pre (c :: t) =
            replaceFirstGo old new (pre ++ [c]) t := by
          simp [replaceFirstGo, hpf]
        rw [hstep, heq]
        have harith : i + 1 + old.length = (i + old.length) + 1 := by omega
        simp only [harith, List.drop_succ_cons, List.take_succ_cons,
          List.append_assoc, List.singleton_append, List.cons_append,
          List.nil_append]

theorem replaceFirst_spec (old new : List Char) :
    ∀ content, containsSub old content = true →
      ∃ i, occursAtB old content i = true ∧
        (∀ j, j < i → occursAtB old content j = false) ∧
        replaceFirst old new content =
          List.take i content ++
            getSubstitution old (List.take i content)
              (List.drop (i + old.length) content) new ++
            List.drop (i + old.length) content := by
  intro content h
  obtain ⟨i, h1, h2, heq⟩ := replaceFirstGo_spec old new content [] h
  refine ⟨i, h1, h2, ?_⟩
  simpa [replaceFirst] using heq

theorem splitB_shape (old : List Char) :
    ∀ b l, ∃ hd tl, splitB old b l = hd :: tl ∧ hd <+: l := by
  intro b
  induction b with
  | zero =>
    intro l
    cases l with
    | nil => exact ⟨[], [], rfl, List.nil_prefix⟩
    | cons c t => exact ⟨[], [], rfl, List.nil_prefix⟩
  | succ b ih =>
    intro l
    cases l with
    | nil => exact ⟨[], [], rfl, List.nil_prefix⟩
    | cons c t =>
      by_cases hcond : (!old.isEmpty && List.isPrefixOf old (c :: t)) = true
      · exact ⟨[], splitB old b (List.drop (old.length - 1) t),
          by simp [splitB, hcond], List.nil_prefix⟩
      · have hcond' : (!old.isEmpty && List.isPrefixOf old (c :: t)) = false :=
          Bool.eq_false_iff.mpr hcond
        obtain ⟨hd, tl, hsp, hpre⟩ := ih t
        refine ⟨c :: hd, tl, by simp [splitB, hcond', hsp], ?_⟩
        obtain ⟨s, hs⟩ := hpre
        exact ⟨s, by rw [List.cons_append, hs]⟩

theorem joinWith_cons_head (sep : List Char) (c : Char) (x : List Char)
    (xs : List (List Char)) :
    joinWith sep ((c :: x) :: xs) = c :: joinWith sep (x :: xs) := by
  cases xs with
  | nil => rfl
  | cons y r => simp [joinWith]

theorem joinWith_splitB (old : List Char) (hne : old ≠ []) :
    ∀ b l, l.length ≤ b → joinWith old (splitB old b l) = l := by
  have hie : old.isEmpty = false := by simp [hne]
  intro b
  induction b with
  | zero =>
    intro l hl
    have hz : l = [] := List.eq_nil_of_length_eq_zero (Nat.le_zero.mp hl)
    subst hz
    rfl
  | succ b ih =>
    intro l hl
    cases l with
    | nil => rfl
    | cons c t =>
      have hl' : t.length ≤ b := by
        simpa using hl
      by_cases hp : List.isPrefixOf old (c :: t) = true
      · have hcond : (!old.isEmpty && List.isPrefixOf old (c :: t)) = true := by
          simp [hie, hp]
        obtain ⟨o, os, rfl⟩ : ∃ o os, old = o :: os := by
          cases old with
          | nil => exact absurd rfl hne
          | cons o os => exact ⟨o, os, rfl⟩
        have hdecomp : c :: t = (o :: os) ++ List.drop os.length t := by
          have h1 := eq_append_drop_of_isPrefixOf hp
          simpa using h1
        have hrlen : (List.drop os.length t).length ≤ b := by
          simp only [List.length_drop]
          omega
        obtain ⟨hd, tl, hsp, _⟩ := splitB_shape (o :: os) b (List.drop os.length t)
        have hrec : splitB (o :: os) (b + 1) (c :: t) =
            [] :: splitB (o :: os) b (List.drop os.length t) := by
          have hdr : List.drop ((o :: os).length - 1) t = List.drop os.length t := by
            simp
          simp only [splitB, hcond, if_true, hdr]
        rw [hrec, hsp, joinWith, ← hsp, ih _ hrlen]
        simpa using hdecomp.symm
      · have hpf : List.isPrefixOf old (c :: t) = false := Bool.eq_false_iff.mpr hp
        have hcond' : (!old.isEmpty && List.isPrefixOf old (c :: t)) = false := by
          simp [hpf]
        obtain ⟨hd, tl, hsp, _⟩ := splitB_shape old b t
        have hrec : splitB old (b + 1) (c :: t) = (c :: hd) :: tl := by
          simp [splitB, hcond', hsp]
        rw [hrec, joinWith_cons_head, ← hsp, ih t hl']

theorem containsSub_nil_right_of_ne (old : List Char) (hne : old ≠ []) :
    containsSub old [] = false := by
  obtain ⟨o, os, rfl⟩ : ∃ o os, old = o :: os := by
    cases old with
    | nil => exact absurd rfl hne
    | cons o os => exact ⟨o, os, rfl⟩
  rfl

theorem splitB_chunks_avoid (old : List Char) (hne : old ≠ []) :
    ∀ b l, ∀ ch ∈ splitB old b l, containsSub old ch = false := by
  intro b
  induction b with
  | zero =>
    intro l ch hch
    have hz : ch = [] := by
      cases l with
      | nil => simpa [splitB] using hch
      | cons c t => simpa [splitB] using hch
    subst hz
    exact containsSub_nil_right_of_ne old hne
  | succ b ih =>
    intro l ch hch
    cases l with
    | nil =>
      have hz : ch = [] := by simpa [splitB] using hch
      subst hz
      exact containsSub_nil_right_of_ne old hne
    | cons c t =>
      by_cases hcond : (!old.isEmpty && List.isPrefixOf old (c :: t)) = true
      · rw [show splitB old (b + 1) (c :: t) =
            [] :: splitB old b (List.drop (old.length - 1) t) by
            simp [splitB, hcond]] at hch
        rcases List.mem_cons.mp hch with hz | hmem
        · subst hz
          exact containsSub_nil_right_of_ne old hne
        · exact ih _ ch hmem
      · have hcond' : (!old.isEmpty && List.isPrefixOf old (c :: t)) = false :=
          Bool.eq_false_iff.mpr hcond
        have hpf : List.isPrefixOf old (c :: t) = false := by
          have hie : old.isEmpty = false := by simp [hne]
          simpa [hie] using hcond'
        obtain ⟨hd, tl, hsp, hpre⟩ := splitB_shape old b t
        rw [show splitB old (b + 1) (c :: t) = (c :: hd) :: tl by
            simp [splitB, hcond', hsp]] at hch
        rcases List.mem_cons.mp hch with hz | hmem
        · subst hz
          have hhd : containsSub old hd = false :=
            ih t hd (by rw [hsp]; exact List.mem_cons_self hd tl)
          have hpch : List.isPrefixOf old (c :: hd) = false := by
            by_contra habs
            have hptrue : List.isPrefixOf old (c :: hd) = true := by
              simpa using habs
            have h1 : old <+: c :: hd := List.isPrefixOf_iff_prefix.mp hptrue
            have h2 : c :: hd <+: c :: t := by
              obtain ⟨s, hs⟩ := hpre
              exact ⟨s, by rw [List.cons_append, hs]⟩
            have h3 : old <+: c :: t := h1.trans h2
            have : List.isPrefixOf old (c :: t) = true :=
              List.isPrefixOf_iff_prefix.mpr h3
            rw [this] at hpf
            exact Bool.true_eq_false.mp hpf
          rw [containsSub, hpch, hhd]
          rfl
        · exact ih t ch (by rw [hsp]; exact List.mem_cons_of_mem hd hmem)

theorem splitB_length_two (old : List Char) (hne : old ≠ []) :
    ∀ b l, l.length ≤ b → containsSub old l = true → 2 ≤ (splitB old b l).length := by
  intro b
  induction b with
  | zero =>
    intro l hl h
    have hz : l = [] := List.eq_nil_of_length_eq_zero (Nat.le_zero.mp hl)
    subst hz
    rw [containsSub_nil_right_of_ne old hne] at h
    exact absurd h Bool.false_ne_true
  | succ b ih =>
    intro l hl h
    cases l with
    | nil =>
      rw [containsSub_nil_right_of_ne old hne] at h
      exact absurd h Bool.false_ne_true
    | cons c t =>
      have hl' : t.length ≤ b := by simpa using hl
      by_cases hcond : (!old.isEmpty && List.isPrefixOf old (c :: t)) = true
      · obtain ⟨hd, tl, hsp, _⟩ := splitB_shape old b (List.drop (old.length - 1) t)
        rw [show splitB old (b + 1) (c :: t) =
            [] :: splitB old b (List.drop (old.length - 1) t) by
            simp [splitB, hcond], hsp]
        simp [Nat.succ_le_succ, Nat.le_add_left]
      · have hcond' : (!old.isEmpty && List.isPrefixOf old (c :: t)) = false :=
          Bool.eq_false_iff.mpr hcond
        have hpf : List.isPrefixOf old (c :: t) = false := by
          have hie : old.isEmpty = false := by simp [hne]
          simpa [hie] using hcond'
        have hct : containsSub old t = true := by
          rw [containsSub, hpf] at h
          simpa using h
        obtain ⟨hd, tl, hsp, _⟩ := splitB_shape old b t
        have hlen := ih t hl' hct
        rw [hsp] at hlen
        rw [show splitB old (b + 1) (c :: t) = (c :: hd) :: tl by
            simp [splitB, hcond', hsp]]
        simpa using hlen

/-- C4 counterexample: JavaScript replace applies GetSubstitution to a
string replacement, so on the file `xAy`, replacing the first `A` with the
newString dollar-ampersand-B writes `xABy` (the ampersand pattern expands
to the match), while replacing the first occurrence by that newString
verbatim — as the claim states for every newString — would give the
different content `x$&By`. -/
theorem c4_counterexample :
    fsRead (editFile [("g", ("xAy").toList)] "g" ("A").toList
        (("$&B").toList) false).2 "g" = some (("xABy").toList)
    ∧ List.take 1 (("xAy").toList) ++ ("$&B").toList ++
        List.drop (1 + ("A").toList.length) (("xAy").toList) = ("x$&By").toList
    ∧ ("xABy").toList ≠ ("x$&By").toList :=
  ⟨by decide, by decide, by decide⟩

/-- C4 (amended): for every readable file containing `oldString` (exact
verbatim substring matching, no fuzzy variants), `editFile` reports success
and rewrites the file; with `replaceAll` false the new content is the old
content with exactly the first (leftmost) occurrence replaced by the
GetSubstitution image of `newString` (dollar patterns expanded against the
match) — everything before and after it unchanged, and the inserted text
equal to `newString` itself whenever `newString` contains no dollar sign —
and with `replaceAll` true (for a non-empty `oldString`, the only case in
which "every occurrence" is well defined) the content decomposes into at
least two chunks none of which contains `oldString`, glued by `oldString`
before the edit and by `newString` verbatim after it (split/join performs
no substitution), so every occurrence is replaced. -/
theorem c4_editFile_replace (fs : FS) (p : String) (old new content : List Char)
    (ra : Bool) (hread : fsRead fs p = some content)
    (hfound : containsSub old content = true) :
    (editFile fs p old new ra).1 = "File edited successfully at " ++ p
    ∧ (ra = false →
        ∃ i, occursAtB old content i = true ∧
          (∀ j, j < i → occursAtB old content j = false) ∧
          fsRead (editFile fs p old new ra).2 p =
            some (List.take i content ++
              getSubstitution old (List.take i content)
                (List.drop (i + old.length) content) new ++
              List.drop (i + old.length) content) ∧
          ('$' ∉ new →
            fsRead (editFile fs p old new ra).2 p =
              some (List.take i content ++ new ++ List.drop (i + old.length) content)))
    ∧ (ra = true → old ≠ [] →
        ∃ chunks, 2 ≤ chunks.length ∧ content = joinWith old chunks ∧
          (∀ ch ∈ chunks, containsSub old ch = false) ∧
          fsRead (editFile fs p old new ra).2 p = some (joinWith new chunks)) := by
  refine ⟨by simp [editFile, hread, hfound], ?_, ?_⟩
  · rintro rfl
    obtain ⟨i, h1, h2, heq⟩ := replaceFirst_spec old new content hfound
    refine ⟨i, h1, h2, ?_, ?_⟩
    · simp [editFile, hread, hfound, fsRead_fsWrite, heq]
    · intro hnd
      simp [editFile, hread, hfound, fsRead_fsWrite, heq,
        getSubstitution_of_no_dollar old (List.take i content)
          (List.drop (i + old.length) content) new hnd]
  · rintro rfl hne
    have hie : old.isEmpty = false := by simp [hne]
    refine ⟨splitB old content.length content,
      splitB_length_two old hne content.length content (Nat.le_refl _) hfound,
      (joinWith_splitB old hne content.length content (Nat.le_refl _)).symm,
      fun ch hch => splitB_chunks_avoid old hne content.length content ch hch, ?_⟩
    simp [editFile, hread, hfound, fsRead_fsWrite, splitJS, hie, splitNE]

/-- C4 witness: a concrete file `xAyAzA`; replace-all of `A` by `B` yields
`xByBzB` through the chunk decomposition, and single replacement yields
`xByAzA`. -/
theorem c4_witness :
    fsRead wFS "f" = some (("xAyAzA").toList)
    ∧ containsSub ("A").toList (("xAyAzA").toList) = true
    ∧ (editFile wFS "f" ("A").toList ("B").toList true).1 =
        "File edited successfully at f"
    ∧ (∃ chunks, 2 ≤ chunks.length ∧
        ("xAyAzA").toList = joinWith ("A").toList chunks ∧
        (∀ ch ∈ chunks, containsSub ("A").toList ch = false) ∧
        fsRead (editFile wFS "f" ("A").toList ("B").toList true).2 "f" =
          some (joinWith ("B").toList chunks))
    ∧ fsRead (editFile wFS "f" ("A").toList ("B").toList true).2 "f" =
        some (("xByBzB").toList)
    ∧ fsRead (editFile wFS "f" ("A").toList ("B").toList false).2 "f" =
        some (("xByAzA").toList) := by
  have hc := c4_editFile_replace wFS "f" ("A").toList ("B").toList
    (("xAyAzA").toList) true (by decide) (by decide)
  exact ⟨by decide, by decide, hc.1, hc.2.2 rfl (by decide), by decide, by decide⟩

/-! ## C6 -/

/-- C6: `findFiles` returns the JSON-array serialization of the absolute
paths of exactly the working-tree files that match the glob pattern and are
not excluded by the fixed `node_modules/**` ignore; when nothing matches,
the result is the empty JSON array `[]`, not an error. -/
theorem c6_findFiles_globbing (cwd pattern : List Char) (tree : List (List Char)) :
    (∀ x, x ∈ findFilesList cwd tree pattern ↔
       ∃ f, f ∈ tree ∧ globMatchPath pattern f = true ∧
         globMatchPath nodeModulesPat f = false ∧ x = absPath cwd f)
    ∧ findFiles cwd tree pattern = jsonArray (findFilesList cwd tree pattern)
    ∧ ((∀ f ∈ tree,
          globMatchPath pattern f = false ∨ globMatchPath nodeModulesPat f = true) →
        findFiles cwd tree pattern = ("[]").toList) := by
  refine ⟨?_, rfl, ?_⟩
  · intro x
    constructor
    · intro hx
      obtain ⟨f, hf, rfl⟩ := List.mem_map.mp hx
      have hmem := List.mem_filter.mp hf
      have h1 := hmem.2
      rw [Bool.and_eq_true] at h1
      refine ⟨f, hmem.1, h1.1, ?_, rfl⟩
      simpa using h1.2
    · rintro ⟨f, hf, hm, hnm, rfl⟩
      refine List.mem_map.mpr ⟨f, List.mem_filter.mpr ⟨hf, ?_⟩, rfl⟩
      rw [Bool.and_eq_true]
      exact ⟨hm, by simp [hnm]⟩
  · intro hall
    have hnil : tree.filter
        (fun f => globMatchPath pattern f && !globMatchPath nodeModulesPat f) = [] := by
      rw [List.filter_eq_nil_iff]
      intro f hf
      rcases hall f hf with hm | hnm
      · simp [hm]
      · simp [hnm]
    simp only [findFiles, findFilesList, hnil, List.map_nil]
    decide

/-- C6 witness: on the tree with `a/x.test.js` and `b/y.js`, the pattern
`**/*.test.js` returns the JSON array with the absolute path of
`a/x.test.js` only; a tree holding only a file under `node_modules` yields
the empty array. -/
theorem c6_witness :
    findFiles ("/w").toList [("a/x.test.js").toList, ("b/y.js").toList]
        ("**/*.test.js").toList = ("[\"/w/a/x.test.js\"]").toList
    ∧ findFiles ("/w").toList [("node_modules/a/z.test.js").toList]
        ("**/*.test.js").toList = ("[]").toList := by
  refine ⟨by decide, (c6_findFiles_globbing ("/w").toList ("**/*.test.js").toList
    [("node_modules/a/z.test.js").toList]).2.2 ?_⟩
  intro f hf
  have hfe : f = ("node_modules/a/z.test.js").toList := List.mem_singleton.mp hf
  subst hfe
  right
  decide


end Agent
